import Mathlib

/-!
# Verification of the phoneme-weighted pun matching engine

A shallow embedding of `pun_generator.py`: the phoneme category model
(IPA alphabet, prefix stress markers), the weighted phoneme edit
distance, the prosody filters, and the idiom substitution search
`find_idiom_puns`, together with theorems about them.

Python strings are embedded as `List Char`; a pronunciation is a list of
phoneme strings.  The external collaborators (the phonemizer-backed
pronunciation lookup and the word-frequency table) are parameters.
-/

/- The rational arithmetic of Batteries is marked irreducible, which
blocks `decide` on concrete distance computations; restore the default
reducibility for this file. -/
attribute [local semireducible] Rat.add Rat.mul Rat.sub Rat.inv

namespace PunGen

/-- A phoneme as produced by the phonemizer: a short string, possibly
carrying a leading stress marker. -/
abbrev Phoneme := List Char

/-- A pronunciation: an ordered list of phonemes. -/
abbrev Pronunciation := List Phoneme

/-- A word, as a string of characters. -/
abbrev Word := List Char

/-- `IPA_VOWELS` from the source: the set of vowel characters. -/
def IPA_VOWELS : List Char := "aɑæɐeəɛɜiɪɨoɔœøuʊʉɯʌyʏ".toList

/-- `phoneme.lstrip('ˈˌ')`: strip the leading stress markers. -/
def strip_stress (ph : Phoneme) : Phoneme :=
  ph.dropWhile (fun c => c == 'ˈ' || c == 'ˌ')

/-- `is_stressed_vowel`: the phoneme starts with `ˈ` and contains a vowel
character. -/
def is_stressed_vowel (ph : Phoneme) : Bool :=
  ph.head? == some 'ˈ' && ph.any (fun c => IPA_VOWELS.contains c)

/-- `get_vowel`: first vowel character of the stress-stripped phoneme. -/
def get_vowel (ph : Phoneme) : Option Char :=
  (strip_stress ph).find? (fun c => IPA_VOWELS.contains c)

/-- `count_syllables`: number of phonemes whose stress-stripped form
contains a vowel character. -/
def count_syllables (pron : Pronunciation) : Nat :=
  pron.countP (fun ph => (strip_stress ph).any (fun c => IPA_VOWELS.contains c))

/-- `get_stressed_vowel`: `get_vowel` of the first primary-stressed vowel
phoneme, if any. -/
def get_stressed_vowel (pron : Pronunciation) : Option Char :=
  match pron.find? is_stressed_vowel with
  | some ph => get_vowel ph
  | none => none

/-- The `phone_to_peers` dict of the source, as an association list
(peer groups of articulatorily similar sounds). -/
def phone_to_peers_table : List (Phoneme × List Phoneme) :=
  [ ("p", ["t", "k"]),
    ("t", ["p", "k"]),
    ("k", ["p", "t"]),
    ("b", ["d", "ɡ"]),
    ("d", ["b", "ɡ"]),
    ("ɡ", ["b", "d"]),
    ("tʃ", []),
    ("dʒ", []),
    ("f", ["θ", "s", "ʃ", "h"]),
    ("θ", ["f", "s", "ʃ", "h"]),
    ("s", ["f", "θ", "ʃ", "h"]),
    ("ʃ", ["f", "θ", "s", "h"]),
    ("h", ["f", "θ", "s", "ʃ"]),
    ("v", ["ð", "z", "ʒ"]),
    ("ð", ["v", "z", "ʒ"]),
    ("z", ["v", "ð", "ʒ"]),
    ("ʒ", ["v", "ð", "z"]),
    ("m", ["n", "ŋ"]),
    ("n", ["m", "ŋ"]),
    ("ŋ", ["m", "n"]),
    ("l", ["ɹ"]),
    ("ɹ", ["l"]),
    ("w", ["j"]),
    ("j", ["w"]),
    ("i", ["ɪ", "eɪ", "ɛ", "æ"]),
    ("ɪ", ["i", "eɪ", "ɛ", "æ"]),
    ("eɪ", ["i", "ɪ", "ɛ", "æ"]),
    ("ɛ", ["i", "ɪ", "eɪ", "æ"]),
    ("æ", ["i", "ɪ", "eɪ", "ɛ"]),
    ("ʌ", ["ə", "ɚ"]),
    ("ə", ["ʌ", "ɚ"]),
    ("ɚ", ["ʌ", "ə"]),
    ("u", ["ʊ", "oʊ", "ɔ", "ɑ"]),
    ("ʊ", ["u", "oʊ", "ɔ", "ɑ"]),
    ("oʊ", ["u", "ʊ", "ɔ", "ɑ"]),
    ("ɔ", ["u", "ʊ", "oʊ", "ɑ"]),
    ("ɑ", ["u", "ʊ", "oʊ", "ɔ"]),
    ("ɝ", []),
    ("aɪ", ["aʊ", "ɔɪ"]),
    ("aʊ", ["aɪ", "ɔɪ"]),
    ("ɔɪ", ["aɪ", "aʊ"])
  ].map (fun e => (e.1.toList, e.2.map (fun s => s.toList)))

/-- `phone_to_peers.get(p, ())`: peer set of a phoneme, empty when absent. -/
def phone_to_peers (p : Phoneme) : List Phoneme :=
  (phone_to_peers_table.lookup p).getD []

/-- `are_peer_phonemes`: equal, or the second appears in the peer set
registered for the first. -/
def are_peer_phonemes (p1 p2 : Phoneme) : Bool :=
  p1 == p2 || (phone_to_peers p1).contains p2

/-- `INF = 1000.0`: the sentinel substitution cost that forbids
substituting a primary-stressed vowel. -/
def INF : ℚ := 1000

/-- The substitution cost computed in the inner loop of
`phoneme_edit_distance` for phonemes whose stress-stripped bases differ:
the sentinel if either side is a primary-stressed vowel, `0.5` for peers,
`1.0` otherwise. -/
def sub_cost (ph1 ph2 : Phoneme) : ℚ :=
  if is_stressed_vowel ph1 || is_stressed_vowel ph2 then INF
  else if are_peer_phonemes (strip_stress ph1) (strip_stress ph2) then 1/2
  else 1

/-- Python's binary `min` on rationals, written with an `if` so that the
kernel can evaluate it; equal to `min` by `pymin_eq_min`. -/
def pymin (a b : ℚ) : ℚ := if a ≤ b then a else b

theorem pymin_eq_min (a b : ℚ) : pymin a b = min a b := by
  unfold pymin
  split
  · exact (min_eq_left (by assumption)).symm
  · exact (min_eq_right (le_of_not_le (by assumption))).symm

/-- The dp recurrence of `phoneme_edit_distance`, with prefixes
represented as reversed lists.  The source fills a table with
`dp[i][0] = i`, `dp[0][j] = j` and

`dp[i][j] = dp[i-1][j-1]` when the stripped bases of `pron1[i-1]` and
`pron2[j-1]` agree, and otherwise
`min(dp[i-1][j] + 1, dp[i][j-1] + 1, dp[i-1][j-1] + sub_cost)`.

`dp[i][j]` depends only on the first `i` phonemes of `pron1` and the
first `j` phonemes of `pron2`; writing those prefixes as reversed lists
(head = last phoneme of the prefix) the recurrence is exactly the one
below.  The extra fuel argument makes the recursion structural; it is
irrelevant as soon as it is at least the sum of the lengths
(`edLoop_fuel_eq`). -/
def edLoop : Nat → Pronunciation → Pronunciation → ℚ
  | _, [], ys => (ys.length : ℚ)
  | _, x :: xs, [] => ((x :: xs).length : ℚ)
  | 0, _ :: _, _ :: _ => 0
  | fuel + 1, x :: xs, y :: ys =>
    if strip_stress x = strip_stress y then
      edLoop fuel xs ys
    else
      pymin (pymin (edLoop fuel xs (y :: ys) + 1) (edLoop fuel (x :: xs) ys + 1))
        (edLoop fuel xs ys + sub_cost x y)

/-- `edLoop` with the canonical fuel. -/
def ped (xs ys : Pronunciation) : ℚ :=
  edLoop (xs.length + ys.length) xs ys

/-- `phoneme_edit_distance(pron1, pron2) = dp[m][n]`, i.e. the recurrence
applied to the full (reversed) pronunciations. -/
def phoneme_edit_distance (pron1 pron2 : Pronunciation) : ℚ :=
  ped pron1.reverse pron2.reverse

theorem edLoop_nil_left (f : Nat) (ys : Pronunciation) :
    edLoop f [] ys = (ys.length : ℚ) := by
  cases f <;> rfl

theorem edLoop_cons_nil (f : Nat) (x : Phoneme) (xs : Pronunciation) :
    edLoop f (x :: xs) [] = ((x :: xs).length : ℚ) := by
  cases f <;> rfl

theorem edLoop_cons_cons (f : Nat) (x y : Phoneme) (xs ys : Pronunciation) :
    edLoop (f + 1) (x :: xs) (y :: ys) =
      if strip_stress x = strip_stress y then
        edLoop f xs ys
      else
        pymin (pymin (edLoop f xs (y :: ys) + 1) (edLoop f (x :: xs) ys + 1))
          (edLoop f xs ys + sub_cost x y) := rfl

/-- The fuel is irrelevant once it is at least the sum of the lengths. -/
theorem edLoop_fuel_eq : ∀ (f g : Nat) (xs ys : Pronunciation),
    xs.length + ys.length ≤ f → xs.length + ys.length ≤ g →
    edLoop f xs ys = edLoop g xs ys := by
  intro f
  induction f with
  | zero =>
    intro g xs ys hf _
    match xs, ys with
    | [], ys => rw [edLoop_nil_left, edLoop_nil_left]
    | x :: xs, [] => rw [edLoop_cons_nil, edLoop_cons_nil]
    | x :: xs, y :: ys => simp at hf
  | succ f ih =>
    intro g xs ys hf hg
    match xs, ys with
    | [], ys => rw [edLoop_nil_left, edLoop_nil_left]
    | x :: xs, [] => rw [edLoop_cons_nil, edLoop_cons_nil]
    | x :: xs, y :: ys =>
      match g with
      | 0 => simp at hg
      | g + 1 =>
        simp only [List.length_cons] at hf hg
        rw [edLoop_cons_cons, edLoop_cons_cons]
        rw [ih g xs ys (by omega) (by omega),
          ih g xs (y :: ys) (by simp; omega) (by simp; omega),
          ih g (x :: xs) ys (by simp; omega) (by simp; omega)]

theorem ped_nil_left (ys : Pronunciation) : ped [] ys = (ys.length : ℚ) := by
  rw [ped, edLoop_nil_left]

theorem ped_nil_right (xs : Pronunciation) : ped xs [] = (xs.length : ℚ) := by
  match xs with
  | [] => rw [ped, edLoop_nil_left]
  | x :: xs => rw [ped, edLoop_cons_nil]

theorem ped_cons_cons (x y : Phoneme) (xs ys : Pronunciation) :
    ped (x :: xs) (y :: ys) =
      if strip_stress x = strip_stress y then
        ped xs ys
      else
        min (min (ped xs (y :: ys) + 1) (ped (x :: xs) ys + 1))
          (ped xs ys + sub_cost x y) := by
  have h : (x :: xs).length + (y :: ys).length = (xs.length + ys.length + 1) + 1 := by
    simp; omega
  rw [ped, h, edLoop_cons_cons]
  rw [edLoop_fuel_eq (xs.length + ys.length + 1) (xs.length + ys.length) xs ys
    (by omega) (by omega)]
  rw [edLoop_fuel_eq (xs.length + ys.length + 1) (xs.length + (y :: ys).length)
    xs (y :: ys) (by simp only [List.length_cons]; omega)
    (by simp only [List.length_cons]; omega)]
  rw [edLoop_fuel_eq (xs.length + ys.length + 1) ((x :: xs).length + ys.length)
    (x :: xs) ys (by simp only [List.length_cons]; omega)
    (by simp only [List.length_cons]; omega)]
  rw [pymin_eq_min, pymin_eq_min]
  rfl

/-! ### General lemmas about the distance -/

theorem lookup_mem {α β : Type} [BEq α] [LawfulBEq α] :
    ∀ (l : List (α × β)) (k : α) (v : β), l.lookup k = some v → (k, v) ∈ l := by
  intro l
  induction l with
  | nil => intro k v h; simp [List.lookup] at h
  | cons e l ih =>
    intro k v h
    match e with
    | (a, b) =>
      rw [List.lookup_cons] at h
      by_cases hk : k == a
      · simp only [hk] at h
        cases h
        have : k = a := by exact eq_of_beq hk
        subst this
        exact List.mem_cons_self _ _
      · simp only [Bool.not_eq_true] at hk
        simp only [hk] at h
        exact List.mem_cons_of_mem _ (ih k v h)

/-- The peer table of the source is symmetric (checked by evaluation). -/
theorem peer_table_symm :
    (phone_to_peers_table.all fun e =>
      e.2.all fun q => ((phone_to_peers_table.lookup q).getD []).contains e.1) = true := by
  decide

theorem are_peer_phonemes_comm (p1 p2 : Phoneme) :
    are_peer_phonemes p1 p2 = are_peer_phonemes p2 p1 := by
  have key : ∀ q1 q2 : Phoneme, (phone_to_peers q1).contains q2 = true →
      (phone_to_peers q2).contains q1 = true := by
    intro q1 q2 h
    rw [phone_to_peers] at h
    match hl : phone_to_peers_table.lookup q1 with
    | none => rw [hl] at h; simp at h
    | some l =>
      rw [hl] at h
      have hmem : (q1, l) ∈ phone_to_peers_table := lookup_mem _ _ _ hl
      have hq2 : q2 ∈ l := by simpa using h
      have := List.all_eq_true.mp peer_table_symm _ hmem
      have := List.all_eq_true.mp this _ hq2
      simpa [phone_to_peers] using this
  have beq_swap : (p1 == p2) = (p2 == p1) := by
    by_cases hp : p1 = p2
    · subst hp; rfl
    · have e1 : (p1 == p2) = false := beq_eq_false_iff_ne.mpr hp
      have e2 : (p2 == p1) = false := beq_eq_false_iff_ne.mpr (Ne.symm hp)
      rw [e1, e2]
  by_cases h12 : (phone_to_peers p1).contains p2 = true
  · have h21 := key _ _ h12
    rw [are_peer_phonemes, are_peer_phonemes, h12, h21, Bool.or_true, Bool.or_true]
  · by_cases h21 : (phone_to_peers p2).contains p1 = true
    · exact absurd (key _ _ h21) h12
    · simp only [Bool.not_eq_true] at h12 h21
      rw [are_peer_phonemes, are_peer_phonemes, h12, h21, Bool.or_false, Bool.or_false,
        beq_swap]

theorem sub_cost_comm (ph1 ph2 : Phoneme) : sub_cost ph1 ph2 = sub_cost ph2 ph1 := by
  rw [sub_cost, sub_cost, Bool.or_comm,
    are_peer_phonemes_comm (strip_stress ph1) (strip_stress ph2)]

theorem sub_cost_nonneg (ph1 ph2 : Phoneme) : 0 ≤ sub_cost ph1 ph2 := by
  rw [sub_cost]
  split
  · norm_num [INF]
  · split <;> norm_num

theorem ped_nonneg : ∀ xs ys : Pronunciation, 0 ≤ ped xs ys := by
  have main : ∀ n xs ys, xs.length + ys.length ≤ n → (0:ℚ) ≤ ped xs ys := by
    intro n
    induction n with
    | zero =>
      intro xs ys h
      match xs, ys with
      | [], ys => rw [ped_nil_left]; positivity
      | x :: xs, ys => simp at h
    | succ n ih =>
      intro xs ys h
      match xs, ys with
      | [], ys => rw [ped_nil_left]; positivity
      | x :: xs, [] => rw [ped_nil_right]; positivity
      | x :: xs, y :: ys =>
        rw [ped_cons_cons]
        simp only [List.length_cons] at h
        split
        · exact ih xs ys (by omega)
        · refine le_min (le_min ?_ ?_) ?_
          · have := ih xs (y :: ys) (by simp only [List.length_cons]; omega)
            linarith
          · have := ih (x :: xs) ys (by simp only [List.length_cons]; omega)
            linarith
          · have := ih xs ys (by omega)
            have := sub_cost_nonneg x y
            linarith
  intro xs ys
  exact main (xs.length + ys.length) xs ys le_rfl

/-- The distance is at least the length difference. -/
theorem ped_ge_length_diff : ∀ xs ys : Pronunciation,
    ((xs.length : ℚ) - ys.length ≤ ped xs ys) ∧ ((ys.length : ℚ) - xs.length ≤ ped xs ys) := by
  have main : ∀ n xs ys, xs.length + ys.length ≤ n →
      (((xs.length : ℚ) - ys.length ≤ ped xs ys) ∧
        ((ys.length : ℚ) - xs.length ≤ ped xs ys)) := by
    intro n
    induction n with
    | zero =>
      intro xs ys h
      match xs, ys with
      | [], ys =>
        rw [ped_nil_left]
        have h0 : (0:ℚ) ≤ (ys.length : ℚ) := Nat.cast_nonneg _
        constructor <;> simp <;> linarith
      | x :: xs, ys => simp at h
    | succ n ih =>
      intro xs ys h
      match xs, ys with
      | [], ys =>
        rw [ped_nil_left]
        have h0 : (0:ℚ) ≤ (ys.length : ℚ) := Nat.cast_nonneg _
        constructor <;> simp <;> linarith
      | x :: xs, [] =>
        rw [ped_nil_right]
        have h0 : (0:ℚ) ≤ (xs.length : ℚ) := Nat.cast_nonneg _
        constructor <;> simp <;> linarith
      | x :: xs, y :: ys =>
        rw [ped_cons_cons]
        simp only [List.length_cons] at h ⊢
        push_cast
        split
        · have := ih xs ys (by omega)
          push_cast at this
          constructor <;> linarith [this.1, this.2]
        · have h1 := ih xs (y :: ys) (by simp only [List.length_cons]; omega)
          have h2 := ih (x :: xs) ys (by simp only [List.length_cons]; omega)
          have h3 := ih xs ys (by omega)
          have hc := sub_cost_nonneg x y
          simp only [List.length_cons] at h1 h2
          push_cast at h1 h2 h3
          constructor <;>
            refine le_min (le_min ?_ ?_) ?_ <;>
            linarith [h1.1, h1.2, h2.1, h2.2, h3.1, h3.2]
  intro xs ys
  exact main (xs.length + ys.length) xs ys le_rfl

/-- Pronunciations with the same stripped bases are at distance `0`. -/
theorem ped_eq_zero_of_strip_eq : ∀ xs ys : Pronunciation,
    xs.map strip_stress = ys.map strip_stress → ped xs ys = 0 := by
  intro xs
  induction xs with
  | nil =>
    intro ys h
    match ys with
    | [] => rw [ped_nil_left]; rfl
    | y :: ys => simp at h
  | cons x xs ih =>
    intro ys h
    match ys with
    | [] => simp at h
    | y :: ys =>
      simp only [List.map_cons, List.cons.injEq] at h
      rw [ped_cons_cons, if_pos h.1]
      exact ih ys h.2

theorem ped_self (xs : Pronunciation) : ped xs xs = 0 :=
  ped_eq_zero_of_strip_eq xs xs rfl

theorem ped_symm : ∀ xs ys : Pronunciation, ped xs ys = ped ys xs := by
  have main : ∀ n xs ys, xs.length + ys.length ≤ n → ped xs ys = ped ys xs := by
    intro n
    induction n with
    | zero =>
      intro xs ys h
      match xs, ys with
      | [], [] => rfl
      | [], y :: ys => simp at h
      | x :: xs, ys => simp at h
    | succ n ih =>
      intro xs ys h
      match xs, ys with
      | [], ys => rw [ped_nil_left, ped_nil_right]
      | x :: xs, [] => rw [ped_nil_left, ped_nil_right]
      | x :: xs, y :: ys =>
        simp only [List.length_cons] at h
        rw [ped_cons_cons, ped_cons_cons]
        rw [ih xs ys (by omega), ih xs (y :: ys) (by simp only [List.length_cons]; omega),
          ih (x :: xs) ys (by simp only [List.length_cons]; omega),
          sub_cost_comm x y]
        by_cases hxy : strip_stress x = strip_stress y
        · rw [if_pos hxy, if_pos hxy.symm]
        · rw [if_neg hxy, if_neg (fun hyx => hxy hyx.symm)]
          rw [min_comm (ped (y :: ys) xs + 1) (ped ys (x :: xs) + 1)]
  intro xs ys
  exact main (xs.length + ys.length) xs ys le_rfl

/-- Inserting one phoneme in front of a pronunciation costs exactly `1`. -/
theorem ped_cons_self_right : ∀ (xs : Pronunciation) (y : Phoneme), ped xs (y :: xs) = 1 := by
  have upper : ∀ (xs : Pronunciation) (y : Phoneme), ped xs (y :: xs) ≤ 1 := by
    intro xs
    induction xs with
    | nil =>
      intro y
      rw [ped_nil_left]
      simp
    | cons x xs ih =>
      intro y
      rw [ped_cons_cons]
      split
      · exact ih x
      · refine le_trans (min_le_left _ _) ?_
        refine le_trans (min_le_right _ _) ?_
        rw [ped_self]
        norm_num
  intro xs y
  refine le_antisymm (upper xs y) ?_
  have := (ped_ge_length_diff xs (y :: xs)).2
  simp only [List.length_cons] at this
  push_cast at this
  linarith

theorem ped_cons_self_left (xs : Pronunciation) (y : Phoneme) : ped (y :: xs) xs = 1 := by
  rw [ped_symm]
  exact ped_cons_self_right xs y

/-- A common (literally equal) prefix can be stripped. -/
theorem ped_append_left : ∀ (A xs ys : Pronunciation), ped (A ++ xs) (A ++ ys) = ped xs ys := by
  intro A
  induction A with
  | nil => intro xs ys; rfl
  | cons a A ih =>
    intro xs ys
    simp only [List.cons_append]
    rw [ped_cons_cons, if_pos rfl]
    exact ih xs ys

/-- Changing exactly one phoneme: the distance is the substitution cost,
capped at `2` by the delete+insert alternative. -/
theorem ped_single_sub (A B : Pronunciation) (a b : Phoneme)
    (h : strip_stress a ≠ strip_stress b) :
    ped (A ++ a :: B) (A ++ b :: B) = min 2 (sub_cost a b) := by
  rw [ped_append_left]
  rw [ped_cons_cons, if_neg h]
  rw [ped_cons_self_right, ped_cons_self_left, ped_self, zero_add]
  norm_num

theorem phoneme_edit_distance_single (pre post : Pronunciation) (a b : Phoneme)
    (h : strip_stress a ≠ strip_stress b) :
    phoneme_edit_distance (pre ++ a :: post) (pre ++ b :: post) = min 2 (sub_cost a b) := by
  rw [phoneme_edit_distance]
  have e1 : (pre ++ a :: post).reverse = post.reverse ++ a :: pre.reverse := by
    simp [List.reverse_append]
  have e2 : (pre ++ b :: post).reverse = post.reverse ++ b :: pre.reverse := by
    simp [List.reverse_append]
  rw [e1, e2]
  exact ped_single_sub _ _ _ _ h

theorem phoneme_edit_distance_zero_of_strip_eq (p1 p2 : Pronunciation)
    (h : p1.map strip_stress = p2.map strip_stress) :
    phoneme_edit_distance p1 p2 = 0 := by
  rw [phoneme_edit_distance]
  exact ped_eq_zero_of_strip_eq _ _ (by simp [List.map_reverse, h])

/-! ### The claims -/

/-- C1: whenever the stress-stripped bases of two phonemes differ and
either one is a primary-stressed vowel, their substitution cost is the
large sentinel `INF`, so substitution is forbidden; consequently, for any
two pronunciations that are identical except for such a pair at one
position, the edit distance is exactly `2.0` (the delete+insert
alternative), never `1.0`. -/
theorem C1_primary_stress_forces_delete_insert (pre post : Pronunciation) (v1 v2 : Phoneme)
    (hbase : strip_stress v1 ≠ strip_stress v2)
    (hstress : is_stressed_vowel v1 = true ∨ is_stressed_vowel v2 = true) :
    sub_cost v1 v2 = INF ∧
    phoneme_edit_distance (pre ++ v1 :: post) (pre ++ v2 :: post) = 2 := by
  have hc : sub_cost v1 v2 = INF := by
    rw [sub_cost, if_pos]
    rcases hstress with h | h <;> simp [h]
  refine ⟨hc, ?_⟩
  rw [phoneme_edit_distance_single pre post v1 v2 hbase, hc, INF]
  norm_num

/-- Witness for C1: `[k, ˈæ, t]` vs `[k, ˈʌ, t]` is at distance `2.0`. -/
theorem C1_primary_stress_forces_delete_insert_witness :
    sub_cost ("ˈæ".toList) ("ˈʌ".toList) = INF ∧
    phoneme_edit_distance (["k".toList] ++ "ˈæ".toList :: ["t".toList])
      (["k".toList] ++ "ˈʌ".toList :: ["t".toList]) = 2 :=
  C1_primary_stress_forces_delete_insert ["k".toList] ["t".toList] _ _
    (by decide) (Or.inl (by decide))

/-- C2: insertion and deletion always cost `1.0` (a pronunciation is at
distance `length` from the empty pronunciation, the row/column 0
initialization), and a single substitution at one position, neither side
a primary-stressed vowel, costs `0` when the stress-stripped bases agree
(stress markers alone are ignored), `0.5` when the bases are peers, and
`1.0` otherwise. -/
theorem C2_cost_precedence :
    (∀ p : Pronunciation,
      phoneme_edit_distance p [] = (p.length : ℚ) ∧
      phoneme_edit_distance [] p = (p.length : ℚ)) ∧
    (∀ (pre post : Pronunciation) (a b : Phoneme),
      is_stressed_vowel a = false → is_stressed_vowel b = false →
      phoneme_edit_distance (pre ++ a :: post) (pre ++ b :: post) =
        if strip_stress a = strip_stress b then 0
        else if are_peer_phonemes (strip_stress a) (strip_stress b) then 1/2
        else 1) := by
  constructor
  · intro p
    constructor
    · rw [phoneme_edit_distance, List.reverse_nil, ped_nil_right, List.length_reverse]
    · rw [phoneme_edit_distance, List.reverse_nil, ped_nil_left, List.length_reverse]
  · intro pre post a b ha hb
    by_cases hs : strip_stress a = strip_stress b
    · rw [if_pos hs]
      exact phoneme_edit_distance_zero_of_strip_eq _ _ (by simp [hs])
    · rw [if_neg hs, phoneme_edit_distance_single pre post a b hs]
      have hcost : sub_cost a b =
          if are_peer_phonemes (strip_stress a) (strip_stress b) then 1/2 else 1 := by
        rw [sub_cost, ha, hb]
        simp
      rw [hcost]
      split <;> norm_num

/-- Witness for C2: a peer substitution `[ˈæ, p]` vs `[ˈæ, t]` costs `0.5`,
and `[k, ˈæ, t]` vs `[]` costs `3.0`. -/
theorem C2_cost_precedence_witness :
    phoneme_edit_distance (["ˈæ".toList] ++ "p".toList :: []) (["ˈæ".toList] ++ "t".toList :: []) = 1/2 ∧
    phoneme_edit_distance ["k".toList, "ˈæ".toList, "t".toList] [] = 3 := by
  constructor
  · have h := C2_cost_precedence.2 ["ˈæ".toList] [] ("p".toList) ("t".toList)
      (by decide) (by decide)
    rw [h]
    decide
  · have h := (C2_cost_precedence.1 ["k".toList, "ˈæ".toList, "t".toList]).1
    rw [h]
    decide

/-- C3: the phoneme edit distance is symmetric in its two arguments
(relying on the symmetry of the `phone_to_peers` table, proved by
evaluation in `peer_table_symm`). -/
theorem C3_distance_symmetric (p1 p2 : Pronunciation) :
    phoneme_edit_distance p1 p2 = phoneme_edit_distance p2 p1 := by
  rw [phoneme_edit_distance, phoneme_edit_distance, ped_symm]

/-! ### The idiom substitution search -/

/-- `word.lower()` (ASCII case mapping). -/
def py_lower (w : Word) : Word := w.map Char.toLower

/-- `word.upper()` (ASCII case mapping). -/
def py_upper (w : Word) : Word := w.map Char.toUpper

/-- `w.isupper()`: at least one cased character and no lowercase cased
character (with ASCII letters as the cased characters). -/
def py_isupper (w : Word) : Bool :=
  w.any Char.isAlpha && (w.filter Char.isAlpha).all Char.isUpper

/-- Helper for `py_split`: accumulates the current (reversed) token. -/
def py_split_aux : List Char → List Char → List Word
  | acc, [] => if acc = [] then [] else [acc.reverse]
  | acc, c :: rest =>
    if c.isWhitespace then
      if acc = [] then py_split_aux [] rest
      else acc.reverse :: py_split_aux [] rest
    else py_split_aux (c :: acc) rest

/-- `s.split()`: split on whitespace runs, discarding empty tokens. -/
def py_split (s : List Char) : List Word := py_split_aux [] s

/-- `' '.join(words)`. -/
def joinWords : List Word → List Char
  | [] => []
  | [w] => w
  | w :: ws => w ++ ' ' :: joinWords ws

/-- The `STOPWORDS` set of the source. -/
def STOPWORDS : List Word :=
  ["a", "an", "the", "in", "on", "at", "to", "of", "by", "is", "it",
   "be", "as", "or", "if", "so", "no", "up", "we", "he", "me", "my",
   "do", "go", "us", "am"].map (fun s => s.toList)

/-- `MIN_WORD_LENGTH = 3`. -/
def MIN_WORD_LENGTH : Nat := 3

/-- The external pronunciation provider (phonemizer backend): maps a
lower-cased word to its pronunciation, or `none` when absent. -/
abbrev PronProvider := Word → Option Pronunciation

/-- The external `word_to_count` frequency table. -/
abbrev FreqTable := Word → Option Nat

/-- `get_pronunciation`: look the lower-cased word up with the provider. -/
def get_pronunciation (provider : PronProvider) (word : Word) : Option Pronunciation :=
  provider (py_lower word)

/-- `get_word_frequency`: `word_to_count.get(word.lower(), 0)`. -/
def get_word_frequency (ft : FreqTable) (word : Word) : Nat :=
  (ft (py_lower word)).getD 0

/-- `pun_rank`: the ranking key `(edit_distance, -word_frequency)`. -/
def pun_rank (edit_distance : ℚ) (word_frequency : Nat) : ℚ × ℤ :=
  (edit_distance, -(word_frequency : ℤ))

/-- One result tuple of `find_idiom_puns`:
`(original_idiom, punned_idiom, matched_word, distance, source_word, relation)`. -/
structure PunResult where
  original_idiom : List Char
  punned_idiom : List Char
  matched_word : Word
  distance : ℚ
  source_word : Option Word
  relation : Option Word
  deriving DecidableEq

/-- The loop state of `find_idiom_puns`: the accumulated `results` list
and the `seen_puns` set (as a list with membership). -/
structure SearchState where
  results : List PunResult
  seen : List (List Char)
  deriving DecidableEq

/-- The body of the inner loop of `find_idiom_puns`, for one candidate
site `(i, idiom_word)` inside `idiom`. -/
def process_site (provider : PronProvider) (word : Word) (word_pron : Pronunciation)
    (stressed_vowel : Option Char) (word_syllables : Nat) (max_distance : ℚ)
    (source_word relation : Option Word) (idiom : List Char) (words_in_idiom : List Word)
    (st : SearchState) (site : Nat × Word) : SearchState :=
  let clean_word := site.2.filter Char.isAlpha
  if clean_word = [] ∨ clean_word = py_lower word then st
  else if clean_word ∈ STOPWORDS then st
  else if clean_word.length < MIN_WORD_LENGTH then st
  else
    match get_pronunciation provider clean_word with
    | none => st
    | some idiom_word_pron =>
      if idiom_word_pron = [] then st
      else if count_syllables idiom_word_pron ≠ word_syllables then st
      else if get_stressed_vowel idiom_word_pron ≠ stressed_vowel then st
      else
        let distance := phoneme_edit_distance word_pron idiom_word_pron
        if 0 < distance ∧ distance ≤ max_distance then
          let new_words := words_in_idiom.set site.1 (py_upper word)
          let punned_idiom := joinWords new_words
          if punned_idiom ∈ st.seen then st
          else
            ⟨st.results ++ [⟨idiom, punned_idiom, clean_word, distance, source_word, relation⟩],
              punned_idiom :: st.seen⟩
        else st

/-- The per-idiom loop of `find_idiom_puns`: try every enumerated token
of the idiom as a substitution site. -/
def process_idiom (provider : PronProvider) (word : Word) (word_pron : Pronunciation)
    (stressed_vowel : Option Char) (word_syllables : Nat) (max_distance : ℚ)
    (source_word relation : Option Word) (st : SearchState) (idiom : List Char) : SearchState :=
  let words_in_idiom := py_split idiom
  words_in_idiom.enum.foldl
    (process_site provider word word_pron stressed_vowel word_syllables max_distance
      source_word relation idiom words_in_idiom) st

/-- The full scan of `find_idiom_puns` over the idiom corpus, producing
the unsorted results and the `seen_puns` set. -/
def gather_puns (provider : PronProvider) (word : Word) (word_pron : Pronunciation)
    (max_distance : ℚ) (source_word relation : Option Word)
    (idioms : List (List Char)) : SearchState :=
  let stressed_vowel := get_stressed_vowel word_pron
  let word_syllables := count_syllables word_pron
  idioms.foldl
    (process_idiom provider word word_pron stressed_vowel word_syllables max_distance
      source_word relation) ⟨[], []⟩

/-- The `sort_key` closure of `find_idiom_puns`: extract the first
all-uppercase token of the punned idiom (the substituted word) and rank
by `pun_rank` with its frequency. -/
def sort_key (ft : FreqTable) (result : PunResult) : ℚ × ℤ :=
  let sub_word := py_lower (((py_split result.punned_idiom).find? py_isupper).getD [])
  pun_rank result.distance (get_word_frequency ft sub_word)

/-- Lexicographic order on the sort keys, as used by Python's ascending
stable sort. -/
def key_le (k1 k2 : ℚ × ℤ) : Bool :=
  decide (k1.1 < k2.1) || (decide (k1.1 = k2.1) && decide (k1.2 ≤ k2.2))

/-- `find_idiom_puns(word, idioms, max_distance, source_word, relation)`:
scan every idiom for words that sound close to `word`, build the punned
idioms, deduplicate, and stably sort by `sort_key`. -/
def find_idiom_puns (provider : PronProvider) (ft : FreqTable) (word : Word)
    (idioms : List (List Char)) (max_distance : ℚ)
    (source_word relation : Option Word) : List PunResult :=
  match get_pronunciation provider word with
  | none => []
  | some word_pron =>
    if word_pron = [] then []
    else if word.length < MIN_WORD_LENGTH then []
    else
      (gather_puns provider word word_pron max_distance source_word relation idioms).results.mergeSort
        (fun r1 r2 => key_le (sort_key ft r1) (sort_key ft r2))

/-! ### Invariants of the search loop -/

theorem foldl_induction {α σ : Type} (f : σ → α → σ) (P : σ → Prop) :
    ∀ (l : List α) (s : σ), P s → (∀ s' a, a ∈ l → P s' → P (f s' a)) →
      P (l.foldl f s) := by
  intro l
  induction l with
  | nil => intro s h _; exact h
  | cons a l ih =>
    intro s h hstep
    exact ih (f s a) (hstep s a (List.mem_cons_self a l) h)
      (fun s' b hb => hstep s' b (List.mem_cons_of_mem _ hb))

theorem foldl_mem_origin {α σ : Type} (f : σ → α → σ) (res : σ → List PunResult)
    (Q : PunResult → Prop) :
    ∀ (l : List α) (s : σ) (r : PunResult),
      (∀ s' a r', a ∈ l → r' ∈ res (f s' a) → r' ∈ res s' ∨ Q r') →
      r ∈ res (l.foldl f s) → r ∈ res s ∨ Q r := by
  intro l
  induction l with
  | nil => intro s r _ hr; exact Or.inl hr
  | cons a l ih =>
    intro s r hstep hr
    rcases ih (f s a) r
        (fun s' b r' hb => hstep s' b r' (List.mem_cons_of_mem _ hb)) hr with h | h
    · exact (hstep s a r (List.mem_cons_self a l) h)
    · exact Or.inr h

/-- What acceptance of a result at some site of `idiom` guarantees. -/
def site_accepted (provider : PronProvider) (word : Word) (word_pron : Pronunciation)
    (max_distance : ℚ) (source_word relation : Option Word) (idiom : List Char)
    (r : PunResult) : Prop :=
  ∃ i p, i < (py_split idiom).length ∧
    get_pronunciation provider r.matched_word = some p ∧
    p ≠ [] ∧
    count_syllables p = count_syllables word_pron ∧
    get_stressed_vowel p = get_stressed_vowel word_pron ∧
    r.distance = phoneme_edit_distance word_pron p ∧
    0 < r.distance ∧ r.distance ≤ max_distance ∧
    r.original_idiom = idiom ∧
    r.punned_idiom = joinWords ((py_split idiom).set i (py_upper word)) ∧
    r.source_word = source_word ∧ r.relation = relation

/-- What membership in the gathered results guarantees. -/
def accepted (provider : PronProvider) (word : Word) (word_pron : Pronunciation)
    (max_distance : ℚ) (source_word relation : Option Word) (idioms : List (List Char))
    (r : PunResult) : Prop :=
  ∃ idiom ∈ idioms,
    site_accepted provider word word_pron max_distance source_word relation idiom r

theorem mem_process_site {provider : PronProvider} {word : Word} {word_pron : Pronunciation}
    {max_distance : ℚ} {source_word relation : Option Word} {idiom : List Char}
    (st : SearchState) (site : Nat × Word) (r : PunResult)
    (hsite : site.1 < (py_split idiom).length)
    (hr : r ∈ (process_site provider word word_pron (get_stressed_vowel word_pron)
      (count_syllables word_pron) max_distance source_word relation idiom
      (py_split idiom) st site).results) :
    r ∈ st.results ∨
      site_accepted provider word word_pron max_distance source_word relation idiom r := by
  simp only [process_site] at hr
  split at hr
  · exact Or.inl hr
  split at hr
  · exact Or.inl hr
  split at hr
  · exact Or.inl hr
  split at hr
  · exact Or.inl hr
  rename_i p hp
  split at hr
  · exact Or.inl hr
  split at hr
  · exact Or.inl hr
  split at hr
  · exact Or.inl hr
  split at hr
  · rename_i hdist
    split at hr
    · exact Or.inl hr
    · rename_i hseen
      rcases List.mem_append.mp hr with h | h
      · exact Or.inl h
      · right
        have hre : r = ⟨idiom, joinWords ((py_split idiom).set site.1 (py_upper word)),
            site.2.filter Char.isAlpha, phoneme_edit_distance word_pron p,
            source_word, relation⟩ := by simpa using h
        subst hre
        rename_i hclean hstop hlen hne hsyl hsv
        refine ⟨site.1, p, hsite, hp, ?_, ?_, ?_, rfl, hdist.1, hdist.2, rfl, rfl, rfl, rfl⟩
        · simpa using hne
        · simpa using hsyl
        · simpa using hsv
  · exact Or.inl hr

theorem mem_process_idiom {provider : PronProvider} {word : Word} {word_pron : Pronunciation}
    {max_distance : ℚ} {source_word relation : Option Word} {idiom : List Char}
    (st : SearchState) (r : PunResult)
    (hr : r ∈ (process_idiom provider word word_pron (get_stressed_vowel word_pron)
      (count_syllables word_pron) max_distance source_word relation st idiom).results) :
    r ∈ st.results ∨
      site_accepted provider word word_pron max_distance source_word relation idiom r := by
  simp only [process_idiom] at hr
  refine foldl_mem_origin _ SearchState.results _ _ st r ?_ hr
  intro s site r' hsitem hr'
  have hlt : site.1 < (py_split idiom).length := by
    have : site ∈ List.enumFrom 0 (py_split idiom) := hsitem
    have := List.fst_lt_add_of_mem_enumFrom this
    omega
  exact mem_process_site s site r' hlt hr'

theorem mem_gather_puns {provider : PronProvider} {word : Word} {word_pron : Pronunciation}
    {max_distance : ℚ} {source_word relation : Option Word} {idioms : List (List Char)}
    (r : PunResult)
    (hr : r ∈ (gather_puns provider word word_pron max_distance source_word relation
      idioms).results) :
    accepted provider word word_pron max_distance source_word relation idioms r := by
  simp only [gather_puns] at hr
  have := foldl_mem_origin _ SearchState.results
    (accepted provider word word_pron max_distance source_word relation idioms)
    idioms ⟨[], []⟩ r ?_ hr
  · rcases this with h | h
    · simp at h
    · exact h
  · intro s idiom r' hidiom hr'
    rcases mem_process_idiom s r' hr' with h | h
    · exact Or.inl h
    · exact Or.inr ⟨idiom, hidiom, h⟩

theorem mem_find_idiom_puns {provider : PronProvider} {ft : FreqTable} {word : Word}
    {idioms : List (List Char)} {max_distance : ℚ} {source_word relation : Option Word}
    (r : PunResult)
    (hr : r ∈ find_idiom_puns provider ft word idioms max_distance source_word relation) :
    ∃ word_pron, get_pronunciation provider word = some word_pron ∧
      accepted provider word word_pron max_distance source_word relation idioms r := by
  simp only [find_idiom_puns] at hr
  split at hr
  · simp at hr
  · rename_i wp hwp
    split at hr
    · simp at hr
    split at hr
    · simp at hr
    · exact ⟨wp, hwp, mem_gather_puns r (List.mem_mergeSort.mp hr)⟩

/-- The deduplication invariant of the search loop: gathered results have
pairwise distinct punned idioms, all recorded in `seen`. -/
def dedupInv (st : SearchState) : Prop :=
  st.results.Pairwise (fun a b => a.punned_idiom ≠ b.punned_idiom) ∧
  ∀ r ∈ st.results, r.punned_idiom ∈ st.seen

theorem process_site_dedupInv (provider : PronProvider) (word : Word)
    (word_pron : Pronunciation) (stressed_vowel : Option Char) (word_syllables : Nat)
    (max_distance : ℚ) (source_word relation : Option Word) (idiom : List Char)
    (words_in_idiom : List Word) (st : SearchState) (site : Nat × Word)
    (h : dedupInv st) :
    dedupInv (process_site provider word word_pron stressed_vowel word_syllables
      max_distance source_word relation idiom words_in_idiom st site) := by
  simp only [process_site]
  split
  · exact h
  split
  · exact h
  split
  · exact h
  split
  · exact h
  split
  · exact h
  split
  · exact h
  split
  · exact h
  split
  · split
    · exact h
    · rename_i hseen
      constructor
      · rw [List.pairwise_append]
        refine ⟨h.1, List.pairwise_singleton _ _, ?_⟩
        intro a ha b hb
        simp only [List.mem_singleton] at hb
        subst hb
        show a.punned_idiom ≠ joinWords (words_in_idiom.set site.1 (py_upper word))
        intro heq
        exact hseen (heq ▸ h.2 a ha)
      · intro r hrm
        rcases List.mem_append.mp hrm with hm | hm
        · exact List.mem_cons_of_mem _ (h.2 r hm)
        · simp only [List.mem_singleton] at hm
          subst hm
          exact List.mem_cons_self _ _
  · exact h

theorem gather_puns_dedupInv (provider : PronProvider) (word : Word)
    (word_pron : Pronunciation) (max_distance : ℚ) (source_word relation : Option Word)
    (idioms : List (List Char)) :
    dedupInv (gather_puns provider word word_pron max_distance source_word relation idioms) := by
  simp only [gather_puns]
  refine foldl_induction _ dedupInv idioms ⟨[], []⟩ ⟨List.Pairwise.nil, by simp⟩ ?_
  intro st idiom _ hst
  simp only [process_idiom]
  exact foldl_induction _ dedupInv _ st hst
    (fun st' site _ h => process_site_dedupInv _ _ _ _ _ _ _ _ _ _ st' site h)

/-! ### Concrete scenario used by the witnesses -/

/-- A small concrete pronunciation provider: cat `[k ˈæ t]`,
bat `[b ˈæ t]`, at `[ˈæ t]`. -/
def exProvider : PronProvider := fun w =>
  if w = "cat".toList then some ["k".toList, "ˈæ".toList, "t".toList]
  else if w = "bat".toList then some ["b".toList, "ˈæ".toList, "t".toList]
  else if w = "at".toList then some ["ˈæ".toList, "t".toList]
  else none

/-- A small concrete frequency table. -/
def exFreq : FreqTable := fun w => if w = "cat".toList then some 100 else none

/-- A one-idiom corpus. -/
def exIdiom : List Char := "the bat".toList

/-- The single result of searching `cat` against `["the bat"]`:
`bat` is matched at distance `1` and replaced by `CAT`. -/
def exResult : PunResult :=
  ⟨"the bat".toList, "the CAT".toList, "bat".toList, 1, none, none⟩

theorem find_idiom_puns_ex :
    find_idiom_puns exProvider exFreq ("cat".toList) [exIdiom] 1 none none = [exResult] := by
  rw [show find_idiom_puns exProvider exFreq ("cat".toList) [exIdiom] 1 none none =
      List.mergeSort [exResult]
        (fun r1 r2 => key_le (sort_key exFreq r1) (sort_key exFreq r2)) from rfl]
  exact List.mergeSort_singleton exResult

/-- C4: every result of `find_idiom_puns` has a distance strictly greater
than `0` and at most `max_distance`. -/
theorem C4_distance_within_bounds (provider : PronProvider) (ft : FreqTable) (word : Word)
    (idioms : List (List Char)) (max_distance : ℚ) (source_word relation : Option Word) :
    ∀ r ∈ find_idiom_puns provider ft word idioms max_distance source_word relation,
      0 < r.distance ∧ r.distance ≤ max_distance := by
  intro r hr
  obtain ⟨wp, _, idiom, _, i, p, _, _, _, _, _, _, hpos, hle, _⟩ := mem_find_idiom_puns r hr
  exact ⟨hpos, hle⟩

/-- Witness for C4 on the concrete scenario. -/
theorem C4_distance_within_bounds_witness :
    0 < exResult.distance ∧ exResult.distance ≤ 1 :=
  C4_distance_within_bounds exProvider exFreq ("cat".toList) [exIdiom] 1 none none exResult
    (by rw [find_idiom_puns_ex]; exact List.mem_singleton_self _)

/-- C6: no two distinct results of one `find_idiom_puns` call have the
same punned idiom text. -/
theorem C6_punned_idioms_distinct (provider : PronProvider) (ft : FreqTable) (word : Word)
    (idioms : List (List Char)) (max_distance : ℚ) (source_word relation : Option Word) :
    (find_idiom_puns provider ft word idioms max_distance source_word relation).Pairwise
      (fun a b => a.punned_idiom ≠ b.punned_idiom) := by
  simp only [find_idiom_puns]
  split
  · exact List.Pairwise.nil
  · rename_i wp hwp
    split
    · exact List.Pairwise.nil
    split
    · exact List.Pairwise.nil
    · have hperm := List.mergeSort_perm
        (gather_puns provider word wp max_distance source_word relation idioms).results
        (fun r1 r2 => key_le (sort_key ft r1) (sort_key ft r2))
      refine (hperm.pairwise_iff (fun h => Ne.symm h)).mpr ?_
      exact (gather_puns_dedupInv provider word wp max_distance source_word relation idioms).1

/-- C7: every result's matched word has a pronunciation with the same
syllable count and the same primary-stressed vowel as the input word. -/
theorem C7_prosody_prefilter (provider : PronProvider) (ft : FreqTable) (word : Word)
    (idioms : List (List Char)) (max_distance : ℚ) (source_word relation : Option Word)
    (wp : Pronunciation) (hw : get_pronunciation provider word = some wp) :
    ∀ r ∈ find_idiom_puns provider ft word idioms max_distance source_word relation,
      ∃ p, get_pronunciation provider r.matched_word = some p ∧
        count_syllables p = count_syllables wp ∧
        get_stressed_vowel p = get_stressed_vowel wp := by
  intro r hr
  obtain ⟨wp', hwp', idiom, _, i, p, _, hp, _, hsyl, hsv, _⟩ := mem_find_idiom_puns r hr
  have : wp' = wp := by
    rw [hw] at hwp'
    exact (Option.some_inj.mp hwp').symm
  subst this
  exact ⟨p, hp, hsyl, hsv⟩

/-- Witness for C7 on the concrete scenario. -/
theorem C7_prosody_prefilter_witness :
    ∃ p, get_pronunciation exProvider exResult.matched_word = some p ∧
      count_syllables p = count_syllables ["k".toList, "ˈæ".toList, "t".toList] ∧
      get_stressed_vowel p = get_stressed_vowel ["k".toList, "ˈæ".toList, "t".toList] :=
  C7_prosody_prefilter exProvider exFreq ("cat".toList) [exIdiom] 1 none none
    ["k".toList, "ˈæ".toList, "t".toList] (by decide) exResult
    (by rw [find_idiom_puns_ex]; exact List.mem_singleton_self _)

/-- C9: a word with no resolvable pronunciation yields the empty result
list (and, the embedding being a total function, no failure). -/
theorem C9_missing_pronunciation_returns_empty (provider : PronProvider) (ft : FreqTable)
    (word : Word) (idioms : List (List Char)) (max_distance : ℚ)
    (source_word relation : Option Word)
    (h : get_pronunciation provider word = none) :
    find_idiom_puns provider ft word idioms max_distance source_word relation = [] := by
  simp only [find_idiom_puns, h]

/-- Witness for C9: a provider that knows no word. -/
theorem C9_missing_pronunciation_returns_empty_witness :
    find_idiom_puns (fun _ => none) exFreq ("cat".toList) [exIdiom] 1 none none = [] :=
  C9_missing_pronunciation_returns_empty (fun _ => none) exFreq ("cat".toList) [exIdiom] 1
    none none rfl

/-- C10: an input word shorter than `MIN_WORD_LENGTH` that does have a
pronunciation still yields the empty result list. -/
theorem C10_short_input_word_returns_empty (provider : PronProvider) (ft : FreqTable)
    (word : Word) (idioms : List (List Char)) (max_distance : ℚ)
    (source_word relation : Option Word) (wp : Pronunciation)
    (h : get_pronunciation provider word = some wp) (hne : wp ≠ [])
    (hshort : word.length < MIN_WORD_LENGTH) :
    find_idiom_puns provider ft word idioms max_distance source_word relation = [] := by
  simp only [find_idiom_puns, h, if_neg hne, if_pos hshort]

/-- Witness for C10: the two-letter word `at` has a pronunciation but is
below the minimum substitutable length. -/
theorem C10_short_input_word_returns_empty_witness :
    find_idiom_puns exProvider exFreq ("at".toList) [exIdiom] 1 none none = [] :=
  C10_short_input_word_returns_empty exProvider exFreq ("at".toList) [exIdiom] 1 none none
    ["ˈæ".toList, "t".toList] (by decide) (by decide) (by decide)

/-- C8 (amended): `find_idiom_puns` performs no validation of the
distance bounds; with a non-positive `max_distance` it returns normally
with the empty list, because no distance can satisfy
`0 < distance ≤ max_distance`. -/
theorem C8_nonpositive_max_distance_returns_empty (provider : PronProvider) (ft : FreqTable)
    (word : Word) (idioms : List (List Char)) (max_distance : ℚ)
    (source_word relation : Option Word) (h : max_distance ≤ 0) :
    find_idiom_puns provider ft word idioms max_distance source_word relation = [] := by
  simp only [find_idiom_puns]
  split
  · rfl
  split
  · rfl
  split
  · rfl
  · rename_i wp hwp hne hlen
    have hempty : (gather_puns provider word wp max_distance source_word relation
        idioms).results = [] := by
      rw [List.eq_nil_iff_forall_not_mem]
      intro r hr
      obtain ⟨idiom, _, i, p, _, _, _, _, _, _, hpos, hle, _⟩ := mem_gather_puns r hr
      linarith
    rw [hempty, List.mergeSort_nil]

/-- Witness for the amended C8. -/
theorem C8_nonpositive_max_distance_returns_empty_witness :
    find_idiom_puns exProvider exFreq ("cat".toList) [exIdiom] 0 none none = [] :=
  C8_nonpositive_max_distance_returns_empty exProvider exFreq ("cat".toList) [exIdiom] 0
    none none le_rfl

/-- Counterexample to C8 as stated: a call with the invalid
`max_distance = -1` is not rejected; it returns normally (with the empty
list), on a scenario where `max_distance = 1` yields a result. -/
theorem C8_invalid_bounds_not_rejected :
    find_idiom_puns exProvider exFreq ("cat".toList) [exIdiom] (-1) none none = [] := by
  rw [show find_idiom_puns exProvider exFreq ("cat".toList) [exIdiom] (-1) none none =
      List.mergeSort []
        (fun r1 r2 => key_le (sort_key exFreq r1) (sort_key exFreq r2)) from rfl]
  exact List.mergeSort_nil

/-! ### Properties of `py_split`, `joinWords` and the sort key -/

theorem py_split_aux_tokens : ∀ (s acc : List Char),
    (∀ c ∈ acc, c.isWhitespace = false) →
    ∀ t ∈ py_split_aux acc s, t ≠ [] ∧ ∀ c ∈ t, c.isWhitespace = false := by
  intro s
  induction s with
  | nil =>
    intro acc hacc t ht
    simp only [py_split_aux] at ht
    split at ht
    · simp at ht
    · rename_i hne
      simp only [List.mem_singleton] at ht
      subst ht
      refine ⟨by simpa using hne, ?_⟩
      intro c hc
      exact hacc c (List.mem_reverse.mp hc)
  | cons c rest ih =>
    intro acc hacc t ht
    simp only [py_split_aux] at ht
    split at ht
    · split at ht
      · exact ih [] (by simp) t ht
      · rename_i hne
        rcases List.mem_cons.mp ht with h | h
        · subst h
          refine ⟨by simpa using hne, ?_⟩
          intro d hd
          exact hacc d (List.mem_reverse.mp hd)
        · exact ih [] (by simp) t h
    · rename_i hw
      refine ih (c :: acc) ?_ t ht
      intro d hd
      rcases List.mem_cons.mp hd with h | h
      · subst h
        simpa using hw
      · exact hacc d h

theorem py_split_tokens (s : List Char) :
    ∀ t ∈ py_split s, t ≠ [] ∧ ∀ c ∈ t, c.isWhitespace = false :=
  py_split_aux_tokens s [] (by simp)

theorem py_split_aux_token_step : ∀ (t : List Char), (∀ c ∈ t, c.isWhitespace = false) →
    ∀ (acc rest : List Char),
    py_split_aux acc (t ++ rest) = py_split_aux (t.reverse ++ acc) rest := by
  intro t
  induction t with
  | nil => intro _ acc rest; simp
  | cons c t ih =>
    intro hws acc rest
    have hc : c.isWhitespace = false := hws c (List.mem_cons_self _ _)
    have step : py_split_aux acc ((c :: t) ++ rest) = py_split_aux (c :: acc) (t ++ rest) := by
      show py_split_aux acc (c :: (t ++ rest)) = py_split_aux (c :: acc) (t ++ rest)
      simp only [py_split_aux, hc]
      simp
    rw [step, ih (fun d hd => hws d (List.mem_cons_of_mem _ hd)) (c :: acc) rest]
    simp

theorem py_split_join : ∀ (ts : List Word),
    (∀ t ∈ ts, t ≠ [] ∧ ∀ c ∈ t, c.isWhitespace = false) →
    py_split (joinWords ts) = ts := by
  intro ts
  induction ts with
  | nil => intro _; rfl
  | cons t ts ih =>
    intro h
    have ht := h t (List.mem_cons_self _ _)
    have hrev : t.reverse ≠ [] := by simpa using ht.1
    match ts with
    | [] =>
      show py_split_aux [] (joinWords [t]) = [t]
      have : joinWords [t] = t ++ [] := by simp [joinWords]
      rw [this, py_split_aux_token_step t ht.2 [] []]
      simp only [py_split_aux, List.append_nil]
      rw [if_neg hrev]
      simp
    | t' :: ts' =>
      show py_split_aux [] (joinWords (t :: t' :: ts')) = t :: t' :: ts'
      have hjoin : joinWords (t :: t' :: ts') = t ++ ' ' :: joinWords (t' :: ts') := rfl
      rw [hjoin, py_split_aux_token_step t ht.2 [] _]
      simp only [List.append_nil, py_split_aux]
      rw [if_pos (by decide), if_neg hrev, List.reverse_reverse]
      congr 1
      exact ih (fun u hu => h u (List.mem_cons_of_mem _ hu))

theorem set_eq_take_cons_drop {α : Type} : ∀ (l : List α) (i : Nat) (v : α),
    i < l.length → l.set i v = l.take i ++ v :: l.drop (i + 1) := by
  intro l
  induction l with
  | nil => intro i v h; simp at h
  | cons x l ih =>
    intro i v h
    match i with
    | 0 => simp
    | i + 1 =>
      simp only [List.length_cons] at h
      simp only [List.set_cons_succ, List.take_succ_cons, List.drop_succ_cons,
        List.cons_append, List.cons.injEq, true_and]
      exact ih i v (by omega)

theorem key_le_trans (a b c : ℚ × ℤ) :
    key_le a b = true → key_le b c = true → key_le a c = true := by
  simp only [key_le, Bool.or_eq_true, Bool.and_eq_true, decide_eq_true_eq]
  rintro (h | ⟨h1, h2⟩) (g | ⟨g1, g2⟩)
  · exact Or.inl (lt_trans h g)
  · exact Or.inl (by rw [← g1]; exact h)
  · exact Or.inl (by rw [h1]; exact g)
  · exact Or.inr ⟨h1.trans g1, le_trans h2 g2⟩

theorem key_le_total (a b : ℚ × ℤ) : (key_le a b || key_le b a) = true := by
  simp only [key_le, Bool.or_eq_true, Bool.and_eq_true, decide_eq_true_eq]
  rcases lt_trichotomy a.1 b.1 with h | h | h
  · exact Or.inl (Or.inl h)
  · rcases le_total a.2 b.2 with h2 | h2
    · exact Or.inl (Or.inr ⟨h, h2⟩)
    · exact Or.inr (Or.inr ⟨h.symm, h2⟩)
  · exact Or.inr (Or.inl h)

theorem key_le_refl (a : ℚ × ℤ) : key_le a a = true := by
  simp [key_le]

/-- Under the spec's preconditions (lower-cased idioms, an input word with
a cased character and no whitespace), the `sort_key` the code computes for
an accepted result is exactly `pun_rank` of its distance and the frequency
of the substituted-in input word. -/
theorem sort_key_of_accepted {provider : PronProvider} {word : Word}
    {word_pron : Pronunciation} {max_distance : ℚ} {source_word relation : Option Word}
    {idioms : List (List Char)} (ft : FreqTable) (r : PunResult)
    (h1 : ∀ idiom ∈ idioms, ∀ t ∈ py_split idiom, py_isupper t = false)
    (h2 : py_isupper (py_upper word) = true)
    (h3 : ∀ c ∈ py_upper word, c.isWhitespace = false)
    (h4 : py_lower (py_lower (py_upper word)) = py_lower word)
    (hacc : accepted provider word word_pron max_distance source_word relation idioms r) :
    sort_key ft r = pun_rank r.distance (get_word_frequency ft word) := by
  obtain ⟨idiom, hidiom, i, p, hlt, _, _, _, _, _, _, _, _, hpun, _, _⟩ := hacc
  have hupper_ne : py_upper word ≠ [] := by
    intro h
    rw [h] at h2
    simp [py_isupper] at h2
  have hset : (py_split idiom).set i (py_upper word) =
      (py_split idiom).take i ++ py_upper word :: (py_split idiom).drop (i + 1) :=
    set_eq_take_cons_drop _ i _ hlt
  have hsplit : py_split (joinWords ((py_split idiom).set i (py_upper word))) =
      (py_split idiom).set i (py_upper word) := by
    refine py_split_join _ ?_
    intro t ht
    rw [hset] at ht
    rcases List.mem_append.mp ht with h | h
    · exact py_split_tokens idiom t (List.mem_of_mem_take h)
    · rcases List.mem_cons.mp h with h | h
      · subst h
        exact ⟨hupper_ne, h3⟩
      · exact py_split_tokens idiom t (List.mem_of_mem_drop h)
  have hfind : ((py_split idiom).set i (py_upper word)).find? py_isupper =
      some (py_upper word) := by
    rw [hset, List.find?_append]
    have hnone : ((py_split idiom).take i).find? py_isupper = none := by
      rw [List.find?_eq_none]
      intro t ht hp
      have := h1 idiom hidiom t (List.mem_of_mem_take ht)
      rw [this] at hp
      exact Bool.false_ne_true hp
    rw [hnone, Option.none_or, List.find?_cons_of_pos _ h2]
  simp only [sort_key, hpun, hsplit, hfind, Option.getD_some]
  rw [get_word_frequency, get_word_frequency, h4]

/-- C5: the result list of `find_idiom_puns` is totally ordered ascending
by the key `pun_rank (distance, -frequency(substituted word))`: every
result's sort key is exactly that key (the substituted-in word of every
result of one call being the input word), the output is pairwise ordered
by it (so a strictly smaller distance always ranks first), and results
with equal keys keep their encounter order from the gathering scan
(stability).  The preconditions: the word has a pronunciation and passes
the length gate, the idioms are lower-cased (no all-uppercase token), and
the word upper-cases to a whitespace-free all-uppercase token that
lower-cases back to the lower-cased word. -/
theorem C5_ranking_key (provider : PronProvider) (ft : FreqTable) (word : Word)
    (idioms : List (List Char)) (max_distance : ℚ) (source_word relation : Option Word)
    (wp : Pronunciation)
    (hw : get_pronunciation provider word = some wp) (hne : wp ≠ [])
    (hlen : ¬ word.length < MIN_WORD_LENGTH)
    (h1 : ∀ idiom ∈ idioms, ∀ t ∈ py_split idiom, py_isupper t = false)
    (h2 : py_isupper (py_upper word) = true)
    (h3 : ∀ c ∈ py_upper word, c.isWhitespace = false)
    (h4 : py_lower (py_lower (py_upper word)) = py_lower word) :
    (∀ r ∈ find_idiom_puns provider ft word idioms max_distance source_word relation,
      sort_key ft r = pun_rank r.distance (get_word_frequency ft word)) ∧
    (find_idiom_puns provider ft word idioms max_distance source_word relation).Pairwise
      (fun a b => key_le (pun_rank a.distance (get_word_frequency ft word))
        (pun_rank b.distance (get_word_frequency ft word)) = true) ∧
    (∀ a b : PunResult, sort_key ft a = sort_key ft b →
      [a, b].Sublist (gather_puns provider word wp max_distance source_word relation
        idioms).results →
      [a, b].Sublist (find_idiom_puns provider ft word idioms max_distance source_word
        relation)) := by
  have hL : find_idiom_puns provider ft word idioms max_distance source_word relation =
      (gather_puns provider word wp max_distance source_word relation idioms).results.mergeSort
        (fun r1 r2 => key_le (sort_key ft r1) (sort_key ft r2)) := by
    simp only [find_idiom_puns, hw, if_neg hne, if_neg hlen]
  have htrans : ∀ a b c : PunResult, key_le (sort_key ft a) (sort_key ft b) →
      key_le (sort_key ft b) (sort_key ft c) → key_le (sort_key ft a) (sort_key ft c) :=
    fun a b c hab hbc => key_le_trans _ _ _ hab hbc
  have htotal : ∀ a b : PunResult,
      (key_le (sort_key ft a) (sort_key ft b) || key_le (sort_key ft b) (sort_key ft a)) =
        true :=
    fun a b => key_le_total _ _
  have hkey : ∀ r ∈ find_idiom_puns provider ft word idioms max_distance source_word relation,
      sort_key ft r = pun_rank r.distance (get_word_frequency ft word) := by
    intro r hr
    obtain ⟨wp', hwp', hacc⟩ := mem_find_idiom_puns r hr
    exact sort_key_of_accepted ft r h1 h2 h3 h4 hacc
  refine ⟨hkey, ?_, ?_⟩
  · have hsorted := List.sorted_mergeSort htrans htotal
      (gather_puns provider word wp max_distance source_word relation idioms).results
    rw [← hL] at hsorted
    refine hsorted.imp_of_mem ?_
    intro a b ha hb hab
    rw [hkey a ha, hkey b hb] at hab
    exact hab
  · intro a b hab hsub
    rw [hL]
    refine List.pair_sublist_mergeSort htrans htotal ?_ hsub
    rw [hab]
    exact key_le_refl _

/-- Witness for C5 on the concrete scenario: the single result's key. -/
theorem C5_ranking_key_witness :
    sort_key exFreq exResult = pun_rank exResult.distance (get_word_frequency exFreq
      ("cat".toList)) :=
  (C5_ranking_key exProvider exFreq ("cat".toList) [exIdiom] 1 none none
      ["k".toList, "ˈæ".toList, "t".toList] (by decide) (by decide) (by decide)
      (by decide) (by decide) (by decide) (by decide)).1 exResult
    (by rw [find_idiom_puns_ex]; exact List.mem_singleton_self _)

end PunGen
